import Mathlib

/-!
Verification of the application-launcher core of the lacker repository
(`src/main.rs`): the application scanner (`scan_applications`), the
categorizer (`categorize_apps`), the launcher (`launch_app`), and the
search ranker described in the specification.

Strings are modelled as Lean `String`s; the Rust string operations used by
the program (`to_lowercase`, byte-wise `cmp`, `split`, `split_whitespace`,
`starts_with`, `join`) are embedded as structurally recursive functions on
`List Char` so that every definition is computable by the kernel.
-/

/-- Embeds Rust `s.to_lowercase()` (as used for the sort keys and search
keys): lowercase every character. -/
def lowerChars (s : String) : List Char :=
  s.data.map Char.toLower

/-- Embeds Rust `a.cmp(b) ≠ Greater` on strings: lexicographic
less-or-equal on the character sequences. -/
def strLe : List Char → List Char → Bool
  | [], _ => true
  | _ :: _, [] => false
  | a :: as, b :: bs =>
    if a < b then true
    else if b < a then false
    else strLe as bs

/-- Embeds Rust `str::split` on a character class: cut the character list at
every character satisfying `p`, keeping empty segments (exactly as Rust
`split` does). -/
def splitByP (p : Char → Bool) : List Char → List (List Char)
  | [] => [[]]
  | c :: s =>
    if p c then [] :: splitByP p s
    else (c :: (splitByP p s).headD []) :: (splitByP p s).tail

/-- Embeds Rust `Vec<&str>::join(" ")`. -/
def joinTokens : List (List Char) → List Char
  | [] => []
  | [t] => t
  | t :: r => t ++ ' ' :: joinTokens r

/-- The `DesktopApp` struct of `src/main.rs`. -/
structure DesktopApp where
  name : String
  exec : String
  icon : Option String
  categories : List String
deriving DecidableEq

/-- One candidate file seen by the scanner loop, abstracting the outcomes of
the filesystem and parser calls made in `scan_applications`: the `.desktop`
extension test, `fs::read_to_string`, `DesktopEntry::decode`, and the
decoded fields `exec()`, `no_display()`, `name(None)`, `icon()`,
`categories()`. -/
structure Descriptor where
  isDesktopFile : Bool
  readOk : Bool
  decodeOk : Bool
  execField : Option String
  noDisplay : Bool
  nameField : Option String
  iconField : Option String
  categoriesField : Option String
deriving DecidableEq

/-- Embeds the categories extraction in `scan_applications`:
`de.categories().unwrap_or_default().split(';').filter(|s| !s.is_empty())`. -/
def parseCategories (field : Option String) : List String :=
  (((splitByP (fun c => c == ';') (field.getD "").data)).filter
      (fun t => t ≠ [])).map (fun t => String.mk t)

/-- Embeds the body of the scanner loop of `scan_applications` for one
directory entry: the extension check, the read, the decode, the
`if let Some(exec)` guard, the `no_display` rejection, and the construction
of the pushed `DesktopApp`. -/
def processDescriptor (d : Descriptor) : Option DesktopApp :=
  if d.isDesktopFile && d.readOk && d.decodeOk then
    match d.execField with
    | none => none
    | some e =>
      if d.noDisplay then none
      else
        some { name := d.nameField.getD "Unknown"
               exec := e
               icon := d.iconField
               categories := parseCategories d.categoriesField }
  else none

/-- The per-user directory of `scan_applications`:
`format!("{}/.local/share/applications", env::var("HOME").unwrap_or_default())`.
An unresolvable `HOME` is `none` and degrades to the empty string. -/
def homeAppsDir (home : Option String) : String :=
  (home.getD "") ++ "/.local/share/applications"

/-- The fixed, ordered directory list `dirs` of `scan_applications`. -/
def appDirs (home : Option String) : List String :=
  [ "/usr/share/applications", "/usr/local/share/applications", homeAppsDir home]

/-- The filesystem is abstracted as a partial map from a directory path to
its listing; `none` is a failing `fs::read_dir` (missing or unreadable
directory), which the scanner silently skips. -/
def scanDir (fs : String → Option (List Descriptor)) (dir : String) :
    List DesktopApp :=
  ((fs dir).getD []).filterMap processDescriptor

/-- The contents of the `apps` vector of `scan_applications` just before the
final sort: the directories scanned in order, results concatenated. -/
def mergedApps (fs : String → Option (List Descriptor)) (home : Option String) :
    List DesktopApp :=
  (appDirs home).flatMap (scanDir fs)

/-- The comparator of the final sort of `scan_applications`:
`a.name.to_lowercase().cmp(&b.name.to_lowercase())` is not `Greater`. -/
def nameLe (a b : DesktopApp) : Prop :=
  strLe (lowerChars a.name) (lowerChars b.name) = true

instance : DecidableRel nameLe := fun a b =>
  inferInstanceAs (Decidable (strLe (lowerChars a.name) (lowerChars b.name) = true))

/-- Embeds `scan_applications`: scan the three directories in order, then
`apps.sort_by(|a, b| a.name.to_lowercase().cmp(&b.name.to_lowercase()))`.
Rust `sort_by` is a stable sort, embedded as insertion sort (stable). -/
def scan_applications (fs : String → Option (List Descriptor))
    (home : Option String) : List DesktopApp :=
  List.insertionSort nameLe (mergedApps fs home)

/-- The fixed translation table of `categorize_apps` (the `match` on the raw
category tag); `none` embeds the `_ => continue` arm. -/
def translateCategory (c : String) : Option String :=
  match c with
  | "Utility" => some "Utilities"
  | "Development" => some "Development"
  | "Graphics" => some "Graphics"
  | "Network" => some "Internet"
  | "Office" => some "Office"
  | "AudioVideo" => some "Multimedia"
  | "System" => some "System"
  | "Game" => some "Games"
  | "Settings" => some "Preferences"
  | _ => none

/-- The bucket an app lands in under `categorize_apps`: the translation of
the first declared category that matches the table (the loop breaks on the
first hit), else the catch-all `"Other"`. -/
def appBucket (a : DesktopApp) : String :=
  (a.categories.findSome? translateCategory).getD "Other"

/-- The `HashMap<String, Vec<DesktopApp>>` of `categorize_apps`, embedded as
an association list with pairwise-distinct keys (the key order carries no
meaning, mirroring a hash map). -/
abbrev CategoryIndex := List (String × List DesktopApp)

/-- Embeds `categories.entry(k).or_insert_with(Vec::new).push(a)`. -/
def pushBucket (m : CategoryIndex) (k : String) (a : DesktopApp) :
    CategoryIndex :=
  match m with
  | [] => [(k, [a])]
  | (k0, v) :: rest =>
    if k0 = k then (k0, v ++ [a]) :: rest
    else (k0, v) :: pushBucket rest k a

/-- One iteration of the loop of `categorize_apps`: push the app into the
bucket named by its first matching category, or into `"Other"`. -/
def catStep (m : CategoryIndex) (a : DesktopApp) : CategoryIndex :=
  pushBucket m (appBucket a) a

/-- Embeds `categorize_apps`: fold the loop over the catalog, starting from
the empty map. -/
def categorize_apps (apps : List DesktopApp) : CategoryIndex :=
  apps.foldl catStep []

/-- Looking a key up in the index (`HashMap::get`). -/
def findBucket (m : CategoryIndex) (k : String) : Option (List DesktopApp) :=
  match m with
  | [] => none
  | (k0, v) :: rest => if k0 = k then some v else findBucket rest k

/-- The entry list stored under a key, empty when the key is absent. -/
def bucketOf (m : CategoryIndex) (k : String) : List DesktopApp :=
  (findBucket m k).getD []

/-- Embeds Rust `exec.split_whitespace()`: split on whitespace characters
and drop the empty segments. -/
def execTokens (e : String) : List (List Char) :=
  (splitByP Char.isWhitespace e.data).filter (fun t => t ≠ [])

/-- Embeds `s.starts_with('%')` on a token. -/
def startsPercent (t : List Char) : Bool :=
  match t with
  | c :: _ => c == '%'
  | [] => false

/-- Embeds the sanitization in `launch_app`:
`exec.split_whitespace().filter(|s| !s.starts_with('%')).collect().join(" ")`. -/
def sanitizedExec (e : String) : String :=
  String.mk (joinTokens ((execTokens e).filter (fun t => !(startsPercent t))))

/-- Embeds `launch_app`: the spawned command is always
`sh -c <sanitized exec>`, with no emptiness check and no error channel. -/
def launch_app (e : String) : String × List String :=
  ("sh", [ "-c", sanitizedExec e])

/-- Modelled from the spec: the Search Ranker (spec section 4.4) is absent
from the provided source file; `subIdx q s` is the zero-based index of the
first occurrence of `q` as a contiguous substring of `s`, `none` when `q`
does not occur. -/
def subIdx (q : List Char) : List Char → Option Nat
  | [] => if q.isPrefixOf ([] : List Char) then some 0 else none
  | c :: t =>
    if q.isPrefixOf (c :: t) then some 0
    else (subIdx q t).map (fun n => n + 1)

/-- Modelled from the spec: the ranking key of the Search Ranker — rank 0
for a name that starts with the query, otherwise the index of the query's
first occurrence within the lowercased name. -/
def rank (q : List Char) (a : DesktopApp) : Nat :=
  if q.isPrefixOf (lowerChars a.name) then 0
  else (subIdx q (lowerChars a.name)).getD 0

/-- Ascending comparison of ranking keys. -/
def rankLe (q : List Char) (a b : DesktopApp) : Prop :=
  rank q a ≤ rank q b

instance (q : List Char) : DecidableRel (rankLe q) := fun a b =>
  inferInstanceAs (Decidable (rank q a ≤ rank q b))

/-- Modelled from the spec: the Search Ranker — keep the entries whose
lowercased name contains the lowercased query as a substring, ordered by
ascending rank with a stable sort (ties keep catalog order). -/
def search (apps : List DesktopApp) (query : String) : List DesktopApp :=
  List.insertionSort (rankLe (lowerChars query))
    (apps.filter (fun a => (subIdx (lowerChars query) (lowerChars a.name)).isSome))

/-! ### Properties of the lexicographic comparator -/

theorem strLe_refl : ∀ s : List Char, strLe s s = true := by
  intro s
  induction s with
  | nil => rfl
  | cons a t ih =>
    simp only [strLe, lt_irrefl a, if_false, ih]

theorem strLe_total : ∀ s t : List Char, strLe s t = true ∨ strLe t s = true := by
  intro s
  induction s with
  | nil => intro t; exact Or.inl rfl
  | cons a as ih =>
    intro t
    cases t with
    | nil => exact Or.inr rfl
    | cons b bs =>
      rcases lt_trichotomy a b with hab | hab | hab
      · left; simp [strLe, hab]
      · subst hab
        rcases ih bs with h | h
        · left; simp [strLe, lt_irrefl a, h]
        · right; simp [strLe, lt_irrefl a, h]
      · right; simp [strLe, hab]

theorem strLe_trans :
    ∀ s t u : List Char, strLe s t = true → strLe t u = true → strLe s u = true := by
  intro s
  induction s with
  | nil => intro t u _ _; rfl
  | cons a as ih =>
    intro t u hst htu
    cases t with
    | nil => simp [strLe] at hst
    | cons b bs =>
      cases u with
      | nil => simp [strLe] at htu
      | cons c cs =>
        rcases lt_trichotomy a b with hab | hab | hab
        · rcases lt_trichotomy b c with hbc | hbc | hbc
          · simp [strLe, lt_trans hab hbc]
          · subst hbc; simp [strLe, hab]
          · simp only [strLe, hbc, lt_asymm hbc, if_false, if_true] at htu
            cases htu
        · subst hab
          rcases lt_trichotomy a c with hac | hac | hac
          · simp [strLe, hac]
          · subst hac
            simp only [strLe, lt_irrefl a, if_false] at hst htu ⊢
            exact ih bs cs hst htu
          · simp only [strLe, hac, lt_asymm hac, if_false, if_true] at htu
            cases htu
        · simp only [strLe, hab, lt_asymm hab, if_false, if_true] at hst
          cases hst

instance : IsTotal DesktopApp nameLe :=
  ⟨fun a b => strLe_total (lowerChars a.name) (lowerChars b.name)⟩

instance : IsTrans DesktopApp nameLe :=
  ⟨fun a b c => strLe_trans (lowerChars a.name) (lowerChars b.name) (lowerChars c.name)⟩

instance (q : List Char) : IsTotal DesktopApp (rankLe q) :=
  ⟨fun a b => Nat.le_total (rank q a) (rank q b)⟩

instance (q : List Char) : IsTrans DesktopApp (rankLe q) :=
  ⟨fun a b c hab hbc => Nat.le_trans hab hbc⟩

/-! ### Properties of the categorizer's bucket map -/

theorem findBucket_pushBucket (m : CategoryIndex) (k k' : String) (a : DesktopApp) :
    findBucket (pushBucket m k a) k' =
      if k' = k then some (bucketOf m k ++ [a]) else findBucket m k' := by
  induction m with
  | nil =>
    by_cases h : k' = k
    · rw [if_pos h]
      simp [pushBucket, findBucket, bucketOf, h]
    · rw [if_neg h]
      simp [pushBucket, findBucket, Ne.symm h]
  | cons p rest ih =>
    obtain ⟨k0, v⟩ := p
    simp only [pushBucket]
    by_cases h0 : k0 = k
    · rw [if_pos h0]
      by_cases h' : k' = k
      · have hk0 : k0 = k' := h0.trans h'.symm
        simp [findBucket, bucketOf, hk0, h', h0]
      · have hne : ¬k0 = k' := fun hh => h' (hh.symm.trans h0)
        simp [findBucket, hne, h']
    · rw [if_neg h0]
      by_cases h1 : k0 = k'
      · have hne' : ¬k' = k := fun hh => h0 (h1.trans hh)
        simp [findBucket, h1, hne']
      · simp [findBucket, h1, ih, bucketOf, h0]

theorem bucketOf_foldl (l : List DesktopApp) :
    ∀ (m : CategoryIndex) (k : String),
      bucketOf (l.foldl catStep m) k =
        bucketOf m k ++ l.filter (fun a => appBucket a == k) := by
  induction l with
  | nil => intro m k; simp
  | cons a t ih =>
    intro m k
    rw [List.foldl_cons, ih]
    simp only [catStep, bucketOf, findBucket_pushBucket]
    by_cases h : appBucket a = k
    · simp [List.filter_cons, ← h, List.append_assoc]
    · simp [List.filter_cons, h, Ne.symm h]

theorem findBucket_foldl_eq_none (l : List DesktopApp) :
    ∀ (m : CategoryIndex) (k : String),
      findBucket (l.foldl catStep m) k = none ↔
        (findBucket m k = none ∧ l.filter (fun a => appBucket a == k) = []) := by
  induction l with
  | nil => intro m k; simp
  | cons a t ih =>
    intro m k
    rw [List.foldl_cons, ih]
    simp only [catStep, findBucket_pushBucket]
    by_cases h : appBucket a = k
    · simp [List.filter_cons, ← h]
    · simp [List.filter_cons, h, Ne.symm h]

theorem bucketOf_categorize (apps : List DesktopApp) (k : String) :
    bucketOf (categorize_apps apps) k = apps.filter (fun x => appBucket x == k) := by
  have h := bucketOf_foldl apps [] k
  simpa [categorize_apps, bucketOf, findBucket] using h

theorem findBucket_categorize_eq_none (apps : List DesktopApp) (k : String) :
    findBucket (categorize_apps apps) k = none ↔
      apps.filter (fun x => appBucket x == k) = [] := by
  have h := findBucket_foldl_eq_none apps [] k
  simpa [categorize_apps, findBucket] using h

theorem fst_of_mem_pushBucket (m : CategoryIndex) (k : String) (a : DesktopApp) :
    ∀ x ∈ pushBucket m k a, x.1 = k ∨ x.1 ∈ m.map Prod.fst := by
  induction m with
  | nil =>
    intro x hx
    simp only [pushBucket, List.mem_singleton] at hx
    subst hx; exact Or.inl rfl
  | cons p rest ih =>
    obtain ⟨k0, v⟩ := p
    intro x hx
    simp only [pushBucket] at hx
    by_cases h0 : k0 = k
    · rw [if_pos h0] at hx
      rcases List.mem_cons.mp hx with hx | hx
      · subst hx; exact Or.inl h0
      · right
        rw [List.map_cons, List.mem_cons]
        exact Or.inr (List.mem_map.mpr ⟨x, hx, rfl⟩)
    · rw [if_neg h0] at hx
      rcases List.mem_cons.mp hx with hx | hx
      · subst hx
        right
        rw [List.map_cons, List.mem_cons]
        exact Or.inl rfl
      · rcases ih x hx with h | h
        · exact Or.inl h
        · right
          rw [List.map_cons, List.mem_cons]
          exact Or.inr h

theorem pairwiseKeys_pushBucket (m : CategoryIndex) (k : String) (a : DesktopApp)
    (hm : m.Pairwise (fun x y => x.1 ≠ y.1)) :
    (pushBucket m k a).Pairwise (fun x y => x.1 ≠ y.1) := by
  induction m with
  | nil => simp [pushBucket]
  | cons p rest ih =>
    obtain ⟨k0, v⟩ := p
    rw [List.pairwise_cons] at hm
    obtain ⟨h1, h2⟩ := hm
    simp only [pushBucket]
    by_cases h0 : k0 = k
    · rw [if_pos h0]
      exact List.pairwise_cons.mpr ⟨fun y hy => h1 y hy, h2⟩
    · rw [if_neg h0]
      refine List.pairwise_cons.mpr ⟨?_, ih h2⟩
      intro y hy
      rcases fst_of_mem_pushBucket rest k a y hy with h | h
      · rw [h]; exact h0
      · rw [List.mem_map] at h
        obtain ⟨z, hz, hzy⟩ := h
        rw [← hzy]
        exact h1 z hz

theorem pairwiseKeys_foldl (l : List DesktopApp) :
    ∀ m : CategoryIndex, m.Pairwise (fun x y => x.1 ≠ y.1) →
      (l.foldl catStep m).Pairwise (fun x y => x.1 ≠ y.1) := by
  induction l with
  | nil => intro m hm; simpa using hm
  | cons a t ih =>
    intro m hm
    rw [List.foldl_cons]
    exact ih _ (pairwiseKeys_pushBucket m (appBucket a) a hm)

theorem pairwiseKeys_categorize (apps : List DesktopApp) :
    (categorize_apps apps).Pairwise (fun x y => x.1 ≠ y.1) :=
  pairwiseKeys_foldl apps [] List.Pairwise.nil

theorem findBucket_eq_some_of_mem (m : CategoryIndex) (k : String)
    (v : List DesktopApp) (hm : m.Pairwise (fun x y => x.1 ≠ y.1))
    (hv : (k, v) ∈ m) : findBucket m k = some v := by
  induction m with
  | nil => cases hv
  | cons p rest ih =>
    obtain ⟨k0, v0⟩ := p
    rw [List.pairwise_cons] at hm
    rcases List.mem_cons.mp hv with hv | hv
    · rw [Prod.mk.injEq] at hv
      obtain ⟨hk, hveq⟩ := hv
      simp only [findBucket]
      rw [if_pos hk.symm, hveq]
    · have hne : ¬k0 = k := by
        have h := hm.1 (k, v) hv
        simpa using h
      simp only [findBucket]
      rw [if_neg hne]
      exact ih hm.2 hv

theorem mem_of_findBucket_eq_some (m : CategoryIndex) (k : String)
    (v : List DesktopApp) (h : findBucket m k = some v) : (k, v) ∈ m := by
  induction m with
  | nil => simp [findBucket] at h
  | cons p rest ih =>
    obtain ⟨k0, v0⟩ := p
    simp only [findBucket] at h
    by_cases h0 : k0 = k
    · rw [if_pos h0] at h
      injection h with h
      rw [← h0, ← h]
      exact List.mem_cons_self _ _
    · rw [if_neg h0] at h
      exact List.mem_cons_of_mem _ (ih h)

/-- A concrete catalog entry used to instantiate theorems with hypotheses:
its first table-matching category is Game, so its bucket is Games. -/
def sampleGameApp : DesktopApp :=
  { name := "Doom", exec := "doom", icon := none, categories := [ "Foo", "Game"] }

/-- C1: under the single-bucket policy, every entry of the catalog appears
in exactly one bucket of the CategoryIndex produced by `categorize_apps`:
the bucket `appBucket a`, which is the display label (per the fixed
translation table `translateCategory`) of the first of its declared
categories that matches the table, or `"Other"` when none matches or no
category is declared; the entry is in no bucket under any other key. -/
theorem categorize_single_bucket (apps : List DesktopApp) (a : DesktopApp)
    (ha : a ∈ apps) :
    a ∈ bucketOf (categorize_apps apps) (appBucket a) ∧
      ∀ k : String, a ∈ bucketOf (categorize_apps apps) k → k = appBucket a := by
  constructor
  · rw [bucketOf_categorize]
    exact List.mem_filter.mpr ⟨ha, by simp⟩
  · intro k hk
    rw [bucketOf_categorize] at hk
    have h := (List.mem_filter.mp hk).2
    have h' : appBucket a = k := by simpa using h
    exact h'.symm

theorem categorize_single_bucket_witness :
    sampleGameApp ∈ [ sampleGameApp] ∧
      (sampleGameApp ∈ bucketOf (categorize_apps [ sampleGameApp]) (appBucket sampleGameApp) ∧
        ∀ k : String, sampleGameApp ∈ bucketOf (categorize_apps [ sampleGameApp]) k →
          k = appBucket sampleGameApp) :=
  ⟨by decide, categorize_single_bucket [ sampleGameApp] sampleGameApp (by decide)⟩

/-- C7: `categorize_apps` is a pure deterministic function of the catalog —
re-running it on the same catalog yields a structurally identical
CategoryIndex — and it has no failure mode: every entry of the catalog
lands in some bucket. -/
theorem categorize_deterministic_total (apps : List DesktopApp) :
    categorize_apps apps = categorize_apps apps ∧
      ∀ a ∈ apps, ∃ k v, (k, v) ∈ categorize_apps apps ∧ a ∈ v := by
  refine ⟨rfl, ?_⟩
  intro a ha
  have h1 : a ∈ bucketOf (categorize_apps apps) (appBucket a) := by
    rw [bucketOf_categorize]
    exact List.mem_filter.mpr ⟨ha, by simp⟩
  cases hf : findBucket (categorize_apps apps) (appBucket a) with
  | none => rw [bucketOf, hf] at h1; simp at h1
  | some v =>
    refine ⟨appBucket a, v, mem_of_findBucket_eq_some _ _ _ hf, ?_⟩
    rw [bucketOf, hf] at h1
    simpa using h1

theorem categorize_deterministic_total_witness :
    sampleGameApp ∈ [ sampleGameApp] ∧
      ∃ k v, (k, v) ∈ categorize_apps [ sampleGameApp] ∧ sampleGameApp ∈ v :=
  ⟨by decide, (categorize_deterministic_total [ sampleGameApp]).2 sampleGameApp (by decide)⟩

/-- C9: every bucket present as a key in the CategoryIndex produced by
`categorize_apps` holds a non-empty entry list, and that list is a
subsequence of the catalog in catalog order. -/
theorem categorize_bucket_nonempty_sublist (apps : List DesktopApp) (k : String)
    (v : List DesktopApp) (hv : (k, v) ∈ categorize_apps apps) :
    v ≠ [] ∧ List.Sublist v apps := by
  have hp := pairwiseKeys_categorize apps
  have hf : findBucket (categorize_apps apps) k = some v :=
    findBucket_eq_some_of_mem _ _ _ hp hv
  have hveq : v = apps.filter (fun x => appBucket x == k) := by
    have h := bucketOf_categorize apps k
    rw [bucketOf, hf] at h
    simpa using h
  constructor
  · intro hnil
    have hnone : findBucket (categorize_apps apps) k = none :=
      (findBucket_categorize_eq_none apps k).mpr (hveq ▸ hnil)
    rw [hf] at hnone
    cases hnone
  · rw [hveq]
    exact List.filter_sublist apps

theorem categorize_bucket_nonempty_sublist_witness :
    ( "Games", [ sampleGameApp]) ∈ categorize_apps [ sampleGameApp] ∧
      ([ sampleGameApp] ≠ ([] : List DesktopApp) ∧
        List.Sublist [ sampleGameApp] [ sampleGameApp]) :=
  ⟨by decide,
    categorize_bucket_nonempty_sublist [ sampleGameApp] "Games" [ sampleGameApp] (by decide)⟩

/-! ### Sortedness and stability of the scanner's final sort -/

/-- C2: iterating the catalog produced by `scan_applications` yields names
in case-insensitive non-decreasing lexicographic order: each entry's
lowercased name is lexicographically at most every later entry's. -/
theorem scan_sorted (fs : String → Option (List Descriptor)) (home : Option String) :
    List.Pairwise nameLe (scan_applications fs home) :=
  List.sorted_insertionSort nameLe (mergedApps fs home)

theorem filter_orderedInsert_pos {α : Type} (r : α → α → Prop) [DecidableRel r]
    (p : α → Bool) (a : α) (l : List α) (hpa : p a = true)
    (hskip : ∀ b, p b = true → r a b) :
    (List.orderedInsert r a l).filter p = a :: l.filter p := by
  induction l with
  | nil => simp [List.orderedInsert, List.filter_cons, hpa]
  | cons b t ih =>
    simp only [List.orderedInsert]
    by_cases hr : r a b
    · rw [if_pos hr, List.filter_cons, if_pos hpa]
    · rw [if_neg hr]
      have hpb : p b = false := by
        cases hb : p b with
        | false => rfl
        | true => exact absurd (hskip b hb) hr
      rw [List.filter_cons, hpb, List.filter_cons, hpb]
      simpa using ih

theorem filter_orderedInsert_neg {α : Type} (r : α → α → Prop) [DecidableRel r]
    (p : α → Bool) (a : α) (l : List α) (hpa : p a = false) :
    (List.orderedInsert r a l).filter p = l.filter p := by
  induction l with
  | nil => simp [List.orderedInsert, List.filter_cons, hpa]
  | cons b t ih =>
    simp only [List.orderedInsert]
    by_cases hr : r a b
    · rw [if_pos hr, List.filter_cons, hpa]
      simp
    · rw [if_neg hr, List.filter_cons, List.filter_cons, ih]

theorem filter_insertionSort {α : Type} (r : α → α → Prop) [DecidableRel r]
    (p : α → Bool) (hp : ∀ a b, p a = true → p b = true → r a b) (l : List α) :
    (List.insertionSort r l).filter p = l.filter p := by
  induction l with
  | nil => rfl
  | cons a t ih =>
    simp only [List.insertionSort]
    by_cases hpa : p a = true
    · rw [filter_orderedInsert_pos r p a _ hpa (fun b hb => hp a b hpa hb), ih,
        List.filter_cons, if_pos hpa]
    · have hpa' : p a = false := by
        cases hb : p a with
        | false => rfl
        | true => exact absurd hb hpa
      rw [filter_orderedInsert_neg r p a _ hpa', ih, List.filter_cons, hpa']
      simp

/-- C8: the scanner's name sort is stable — for every case-insensitive name
key, the entries of the final catalog carrying that key appear in exactly
the order they had before the sort (directory scan order, files in
encounter order). -/
theorem scan_sort_stable (fs : String → Option (List Descriptor))
    (home : Option String) (key : List Char) :
    (scan_applications fs home).filter (fun a => lowerChars a.name == key) =
      (mergedApps fs home).filter (fun a => lowerChars a.name == key) := by
  refine filter_insertionSort nameLe _ ?_ _
  intro a b ha hb
  have ha' : lowerChars a.name = key := by simpa using ha
  have hb' : lowerChars b.name = key := by simpa using hb
  show strLe (lowerChars a.name) (lowerChars b.name) = true
  rw [ha', hb']
  exact strLe_refl key

/-! ### Filtering of suppressed descriptors, and home-directory degradation -/

/-- A suppressed descriptor: valid but with the no-display flag set. -/
def hiddenDesc : Descriptor :=
  { isDesktopFile := true, readOk := true, decodeOk := true,
    execField := some "foo", noDisplay := true,
    nameField := some "Hidden", iconField := none, categoriesField := none }

/-- A displayed descriptor that declares the same exec string as
`hiddenDesc`. -/
def visibleDesc : Descriptor :=
  { isDesktopFile := true, readOk := true, decodeOk := true,
    execField := some "foo", noDisplay := false,
    nameField := some "Visible", iconField := none, categoriesField := none }

/-- A filesystem whose system directory holds both descriptors. -/
def exampleFs : String → Option (List Descriptor) := fun dir =>
  if dir = "/usr/share/applications" then some [ hiddenDesc, visibleDesc] else none

/-- C5 counterexample: `hiddenDesc` has the no-display flag set and declares
exec string "foo", yet the catalog produced by scanning `exampleFs` does
contain an entry with exec string "foo" (contributed by the displayed
descriptor `visibleDesc`), so the claim as stated fails. -/
theorem scan_no_display_counterexample :
    hiddenDesc.noDisplay = true ∧ hiddenDesc.execField = some "foo" ∧
      ∃ a ∈ scan_applications exampleFs (some "/home/user"), a.exec = "foo" := by
  decide

/-- The descriptors seen by one scan: the listings of the three scanned
directories, in scan order. -/
def allDescriptors (fs : String → Option (List Descriptor)) (home : Option String) :
    List Descriptor :=
  (appDirs home).flatMap (fun dir => (fs dir).getD [])

/-- C5 amended: a descriptor whose no-display flag is set contributes no
entry to the catalog, and likewise a descriptor lacking a launch command;
moreover every exec string in the catalog is contributed by some scanned
descriptor whose no-display flag is unset (an entry can therefore still
carry the same exec string as a suppressed descriptor when a displayed
descriptor also declares it). -/
theorem scan_no_display_contributes_nothing :
    (∀ d : Descriptor,
        d.noDisplay = true ∨ d.execField = none → processDescriptor d = none) ∧
      ∀ (fs : String → Option (List Descriptor)) (home : Option String)
        (a : DesktopApp), a ∈ scan_applications fs home →
          ∃ d ∈ allDescriptors fs home,
            d.noDisplay = false ∧ d.execField = some a.exec := by
  constructor
  · intro d hd
    unfold processDescriptor
    by_cases hflags : (d.isDesktopFile && d.readOk && d.decodeOk) = true
    · rw [if_pos hflags]
      rcases hd with hd | hd
      · cases hex : d.execField with
        | none => rfl
        | some e => simp [hd]
      · rw [hd]
    · rw [if_neg hflags]
  · intro fs home a ha
    have ha' : a ∈ mergedApps fs home := (List.mem_insertionSort nameLe).mp ha
    rw [mergedApps, List.mem_flatMap] at ha'
    obtain ⟨dir, hdir, hadir⟩ := ha'
    rw [scanDir, List.mem_filterMap] at hadir
    obtain ⟨d, hd, hpd⟩ := hadir
    refine ⟨d, ?_, ?_⟩
    · rw [allDescriptors, List.mem_flatMap]
      exact ⟨dir, hdir, hd⟩
    · unfold processDescriptor at hpd
      split at hpd
      · cases hex : d.execField with
        | none => rw [hex] at hpd; cases hpd
        | some e =>
          rw [hex] at hpd
          by_cases hnd : d.noDisplay = true
          · simp [hnd] at hpd
          · refine ⟨by simpa using hnd, ?_⟩
            simp only [hnd, if_false, Bool.false_eq_true] at hpd
            injection hpd with h
            rw [← h]
      · cases hpd

theorem scan_no_display_contributes_nothing_witness :
    processDescriptor hiddenDesc = none ∧
      ∃ d ∈ allDescriptors exampleFs (some "/home/user"),
        d.noDisplay = false ∧
          d.execField = some (DesktopApp.exec
            { name := "Visible", exec := "foo", icon := none, categories := [] }) :=
  ⟨scan_no_display_contributes_nothing.1 hiddenDesc (Or.inl (by decide)),
    scan_no_display_contributes_nothing.2 exampleFs (some "/home/user")
      { name := "Visible", exec := "foo", icon := none, categories := [] } (by decide)⟩

/-- C6: with an unresolvable home location the per-user directory degrades
to the inert path "/.local/share/applications"; when the filesystem has no
readable directory there, that path contributes zero entries, and the scan
still succeeds, returning exactly the merge of the two system
directories. -/
theorem scan_home_unresolvable :
    homeAppsDir none = "/.local/share/applications" ∧
      ∀ fs : String → Option (List Descriptor),
        fs (homeAppsDir none) = none →
          scanDir fs (homeAppsDir none) = [] ∧
            mergedApps fs none =
              scanDir fs "/usr/share/applications" ++
                scanDir fs "/usr/local/share/applications" := by
  refine ⟨by decide, ?_⟩
  intro fs hfs
  have h1 : scanDir fs (homeAppsDir none) = [] := by
    rw [scanDir, hfs]
    rfl
  refine ⟨h1, ?_⟩
  rw [mergedApps, appDirs]
  simp [h1]

theorem scan_home_unresolvable_witness :
    (fun _ : String => (none : Option (List Descriptor))) (homeAppsDir none) = none ∧
      (scanDir (fun _ => none) (homeAppsDir none) = [] ∧
        mergedApps (fun _ => none) none =
          scanDir (fun _ => none) "/usr/share/applications" ++
            scanDir (fun _ => none) "/usr/local/share/applications") :=
  ⟨rfl, scan_home_unresolvable.2 (fun _ => none) rfl⟩

/-! ### The launcher's sanitization -/

theorem splitByP_ne_nil (p : Char → Bool) (s : List Char) : splitByP p s ≠ [] := by
  cases s with
  | nil => simp [splitByP]
  | cons c t =>
    simp only [splitByP]
    split <;> simp

theorem mem_splitByP_clean (p : Char → Bool) (s : List Char) :
    ∀ t ∈ splitByP p s, ∀ c ∈ t, p c = false := by
  induction s with
  | nil =>
    intro t ht c hc
    simp only [splitByP, List.mem_singleton] at ht
    subst ht
    cases hc
  | cons b s ih =>
    intro t ht c hc
    simp only [splitByP] at ht
    by_cases hb : p b = true
    · rw [if_pos hb] at ht
      rcases List.mem_cons.mp ht with ht | ht
      · subst ht; cases hc
      · exact ih t ht c hc
    · have hb' : p b = false := by simpa using hb
      rw [if_neg hb] at ht
      rcases List.mem_cons.mp ht with ht | ht
      · subst ht
        rcases List.mem_cons.mp hc with hc | hc
        · subst hc; exact hb'
        · cases hs : splitByP p s with
          | nil => exact absurd hs (splitByP_ne_nil p s)
          | cons h r =>
            rw [hs] at hc
            exact ih h (hs ▸ List.mem_cons_self h r) c (by simpa using hc)
      · have hmem : t ∈ splitByP p s :=
          List.Sublist.mem ht (List.tail_sublist (splitByP p s))
        exact ih t hmem c hc

theorem splitByP_append_of_clean (p : Char → Bool) (t s : List Char)
    (ht : ∀ c ∈ t, p c = false) :
    splitByP p (t ++ s) =
      (t ++ (splitByP p s).headD []) :: (splitByP p s).tail := by
  induction t with
  | nil =>
    simp only [List.nil_append]
    cases hs : splitByP p s with
    | nil => exact absurd hs (splitByP_ne_nil p s)
    | cons h r => simp
  | cons c t ih =>
    have hc : p c = false := ht c (List.mem_cons_self c t)
    have ht' : ∀ x ∈ t, p x = false := fun x hx => ht x (List.mem_cons_of_mem c hx)
    simp only [List.cons_append, splitByP, hc, Bool.false_eq_true, if_false,
      List.append_eq]
    rw [ih ht']
    simp

theorem splitByP_joinTokens (p : Char → Bool) (hsp : p ' ' = true)
    (ts : List (List Char)) (hts : ∀ t ∈ ts, t ≠ [] ∧ ∀ c ∈ t, p c = false) :
    (splitByP p (joinTokens ts)).filter (fun t => t ≠ []) = ts := by
  induction ts with
  | nil => simp [joinTokens, splitByP]
  | cons t ts ih =>
    have ht := hts t (List.mem_cons_self t ts)
    have hts' : ∀ x ∈ ts, x ≠ [] ∧ ∀ c ∈ x, p c = false :=
      fun x hx => hts x (List.mem_cons_of_mem t hx)
    cases ts with
    | nil =>
      have h := splitByP_append_of_clean p t [] ht.2
      rw [List.append_nil] at h
      show (splitByP p t).filter (fun t => t ≠ []) = [t]
      rw [h]
      simp [splitByP, List.filter_cons, ht.1]
    | cons t2 r =>
      show (splitByP p (t ++ ' ' :: joinTokens (t2 :: r))).filter (fun t => t ≠ []) = _
      rw [splitByP_append_of_clean p t _ ht.2]
      have hsplit : splitByP p (' ' :: joinTokens (t2 :: r)) =
          [] :: splitByP p (joinTokens (t2 :: r)) := by
        simp [splitByP, hsp]
      rw [hsplit]
      simp only [List.headD_cons, List.tail_cons, List.append_nil]
      have hkeep : decide (t ≠ []) = true := by simp [ht.1]
      rw [List.filter_cons, if_pos hkeep, ih hts']

/-- C4: the launcher's sanitization splits the exec string on whitespace,
discards every token beginning with a '%', and rejoins the survivors with
single spaces: re-tokenizing the sanitized command recovers exactly the
non-placeholder tokens of the input, and the concrete exec string
"firefox %U --new-window" sanitizes to "firefox --new-window". -/
theorem launch_sanitization :
    (∀ e : String,
        execTokens (sanitizedExec e) =
          (execTokens e).filter (fun t => !(startsPercent t))) ∧
      sanitizedExec "firefox %U --new-window" = "firefox --new-window" := by
  constructor
  · intro e
    show (splitByP Char.isWhitespace
        (joinTokens ((execTokens e).filter (fun t => !(startsPercent t))))).filter
          (fun t => t ≠ []) = _
    refine splitByP_joinTokens Char.isWhitespace (by decide) _ ?_
    intro t ht
    have ht' : t ∈ execTokens e := List.mem_of_mem_filter ht
    constructor
    · have h := (List.mem_filter.mp ht').2
      simpa using h
    · intro c hc
      exact mem_splitByP_clean Char.isWhitespace e.data t
        (List.mem_of_mem_filter (a := t) ht') c hc
  · decide

/-- C10: when every whitespace-separated token of the exec string begins
with '%', the sanitized command line is the empty string, and `launch_app`
still hands it to the shell interpreter (`sh -c ""`) rather than rejecting
the call. -/
theorem launch_all_placeholder_tokens (e : String)
    (h : ∀ t ∈ execTokens e, startsPercent t = true) :
    sanitizedExec e = "" ∧ launch_app e = ("sh", [ "-c", ""]) := by
  have hf : (execTokens e).filter (fun t => !(startsPercent t)) = [] := by
    apply List.filter_eq_nil_iff.mpr
    intro t ht
    simp [h t ht]
  have hs : sanitizedExec e = "" := by
    rw [sanitizedExec, hf]
    rfl
  exact ⟨hs, by rw [launch_app, hs]⟩

theorem launch_all_placeholder_tokens_witness :
    (∀ t ∈ execTokens "%U %f", startsPercent t = true) ∧
      (sanitizedExec "%U %f" = "" ∧ launch_app "%U %f" = ("sh", [ "-c", ""])) :=
  ⟨by decide, launch_all_placeholder_tokens "%U %f" (by decide)⟩

/-! ### The search ranker (modelled from the spec) -/

theorem isPrefixOf_iff_append (q : List Char) :
    ∀ s : List Char, q.isPrefixOf s = true ↔ ∃ v, q ++ v = s := by
  induction q with
  | nil => intro s; simp [List.isPrefixOf]
  | cons a q ih =>
    intro s
    cases s with
    | nil => simp [List.isPrefixOf]
    | cons b s' =>
      simp only [List.isPrefixOf, Bool.and_eq_true, beq_iff_eq, ih, List.cons_append,
        List.cons.injEq]
      constructor
      · rintro ⟨hab, v, hv⟩; exact ⟨v, hab, hv⟩
      · rintro ⟨v, hab, hv⟩; exact ⟨hab, v, hv⟩

theorem subIdx_isSome_iff (q : List Char) :
    ∀ s : List Char, (subIdx q s).isSome = true ↔ ∃ u v, u ++ q ++ v = s := by
  intro s
  induction s with
  | nil =>
    simp only [subIdx]
    by_cases h : q.isPrefixOf ([] : List Char) = true
    · rw [if_pos h]
      have hq : q = [] := by
        rcases (isPrefixOf_iff_append q []).mp h with ⟨v, hv⟩
        cases q with
        | nil => rfl
        | cons a t => simp at hv
      subst hq
      simp
    · rw [if_neg h]
      simp only [Option.isSome_none, Bool.false_eq_true, false_iff]
      rintro ⟨u, v, huv⟩
      have hu : q ++ v = [] := by
        cases u with
        | nil => simpa using huv
        | cons x xs => simp at huv
      have hq : q = [] := by
        cases q with
        | nil => rfl
        | cons x xs => simp at hu
      rw [hq] at h
      simp [List.isPrefixOf] at h
  | cons c t ih =>
    simp only [subIdx]
    by_cases h : q.isPrefixOf (c :: t) = true
    · rw [if_pos h]
      simp only [Option.isSome_some, true_iff]
      rcases (isPrefixOf_iff_append q _).mp h with ⟨v, hv⟩
      exact ⟨[], v, by simpa using hv⟩
    · rw [if_neg h]
      rw [Option.isSome_map']
      rw [ih]
      constructor
      · rintro ⟨u, v, huv⟩
        exact ⟨c :: u, v, by simp [huv]⟩
      · rintro ⟨u, v, huv⟩
        cases u with
        | nil =>
          exfalso
          apply h
          exact (isPrefixOf_iff_append q _).mpr ⟨v, by simpa using huv⟩
        | cons x u' =>
          refine ⟨u', v, ?_⟩
          simp only [List.cons_append, List.cons.injEq] at huv
          exact huv.2

theorem subIdx_ge_one (q s : List Char) (hsome : (subIdx q s).isSome = true)
    (hpre : q.isPrefixOf s = false) : 1 ≤ (subIdx q s).getD 0 := by
  cases s with
  | nil =>
    rw [subIdx, if_neg (by simp [hpre])] at hsome
    cases hsome
  | cons c t =>
    rw [subIdx, if_neg (by simp [hpre])] at hsome ⊢
    cases ho : subIdx q t with
    | none => rw [ho] at hsome; simp at hsome
    | some n => simp

/-- The entries of the worked search example from the spec. -/
def firefoxApp : DesktopApp :=
  { name := "Firefox", exec := "firefox", icon := none, categories := [] }

/-- See `firefoxApp`. -/
def gimpApp : DesktopApp :=
  { name := "GIMP", exec := "gimp", icon := none, categories := [] }

/-- See `firefoxApp`. -/
def fireExtApp : DesktopApp :=
  { name := "Fire Extinguisher Manual", exec := "fire-ext", icon := none,
    categories := [] }

/-- An entry whose name has the query "fire" as a proper prefix. -/
def fireballApp : DesktopApp :=
  { name := "Fireball", exec := "fb", icon := none, categories := [] }

/-- An entry whose name contains "fire" only as an inner substring. -/
def campfireApp : DesktopApp :=
  { name := "Campfire", exec := "cf", icon := none, categories := [] }

/-- C3: the candidates produced by `search` are exactly the catalog entries
whose lowercased name contains the lowercased query as a substring; the
result is ordered by ascending rank, with prefix matches (rank 0) strictly
before all non-prefix matches; and for query "fire" against the catalog
[Firefox, GIMP, Fire Extinguisher Manual] the result is
[Firefox, Fire Extinguisher Manual], GIMP excluded. -/
theorem search_ranking :
    (∀ (apps : List DesktopApp) (query : String) (a : DesktopApp),
        a ∈ search apps query ↔
          a ∈ apps ∧ ∃ u v, u ++ lowerChars query ++ v = lowerChars a.name) ∧
      (∀ (apps : List DesktopApp) (query : String),
        List.Pairwise (rankLe (lowerChars query)) (search apps query)) ∧
      (∀ (apps : List DesktopApp) (query : String) (a b : DesktopApp),
        query ≠ "" → a ∈ search apps query → b ∈ search apps query →
          (lowerChars query).isPrefixOf (lowerChars a.name) = true →
          (lowerChars query).isPrefixOf (lowerChars b.name) = false →
          rank (lowerChars query) a < rank (lowerChars query) b) ∧
      search [ firefoxApp, gimpApp, fireExtApp] "fire" = [ firefoxApp, fireExtApp] := by
  refine ⟨?_, ?_, ?_, by decide⟩
  · intro apps query a
    rw [search, List.mem_insertionSort, List.mem_filter]
    constructor
    · rintro ⟨ha, hp⟩
      exact ⟨ha, (subIdx_isSome_iff _ _).mp hp⟩
    · rintro ⟨ha, hex⟩
      exact ⟨ha, (subIdx_isSome_iff _ _).mpr hex⟩
  · intro apps query
    exact List.sorted_insertionSort _ _
  · intro apps query a b hq ha hb hpa hpb
    have hbs : (subIdx (lowerChars query) (lowerChars b.name)).isSome = true := by
      rw [search, List.mem_insertionSort, List.mem_filter] at hb
      exact hb.2
    have hra : rank (lowerChars query) a = 0 := by rw [rank, if_pos hpa]
    have hrb : 1 ≤ rank (lowerChars query) b := by
      rw [rank, if_neg (by simp [hpb])]
      exact subIdx_ge_one _ _ hbs hpb
    omega

theorem search_ranking_witness :
    ("fire" : String) ≠ "" ∧
      rank (lowerChars "fire") fireballApp < rank (lowerChars "fire") campfireApp :=
  ⟨by decide,
    search_ranking.2.2.1 [ fireballApp, campfireApp] "fire" fireballApp campfireApp
      (by decide) (by decide) (by decide) (by decide) (by decide)⟩
